import Mathlib

/-!
# Verification of the crypto3-containers Merkle tree

Shallow embedding of `src/include/nil/merkle/merkle.hpp` (`MerkleTree`):
the construction algorithm (layer-by-layer hashing), the BGL edge structure
(`add_edge(children_index, current_element)`), and the queries `children`,
`parent`, `root`, `hash_path`, `operator[]`, and the getters.

Digests are byte sequences, bytes are `Nat`.  The hash function and the
per-element serialization are parameters, as in the C++ template.  C++
undefined behavior (out-of-bounds vector access, dereferencing an end
iterator) is marked by the `CppResult.ub` constructor; the code under
`src/` raises no structured errors in these places.

`utilities.hpp` (the `get_merkle_tree_len` / `get_merkle_tree_row_count`
helpers) and `proof.hpp` (`MerkleProof`) are not part of the sources; they
are modelled from the specification, as marked on each definition.
-/

namespace Merkletree

/-- A digest: a byte sequence (bytes as `Nat`).  Corresponds to the C++
`element` type (`Hash::digest_type`). -/
abbrev element := List Nat

/-- The error kinds named by the specification (section 7). -/
inductive MerkleError where
  | invalidLeafCount
  | indexOutOfRange
  | rootHasNoParent
  | leafHasNoChildren
deriving DecidableEq, Repr

/-- Outcome of a C++ operation: a value, a structured error, or undefined
behavior (`ub`: out-of-bounds access / dereferencing an end iterator). -/
inductive CppResult (α : Type) where
  | ok (a : α)
  | err (e : MerkleError)
  | ub
deriving DecidableEq, Repr

/-- Modelled from the spec: `utilities::get_merkle_tree_row_count` is not in
the sources.  "`row_count`: number of layers from leaves (row 0) to root;
derived as the smallest integer such that repeated division of `leaf_count`
by `arity` reaches 1."  Where that chain never reaches 1 the spec leaves the
value undefined; this model stops as soon as the layer size drops to `≤ 1`
(and guards `arity ≤ 1`, for which the spec derivation is also undefined). -/
def merkle_row_count_go (fuel : Nat) (leafs arity : Nat) : Nat :=
  match fuel with
  | 0 => 1
  | fuel + 1 =>
    if leafs ≤ 1 ∨ arity ≤ 1 then 1
    else 1 + merkle_row_count_go fuel (leafs / arity) arity

/-- Entry point of the row-count derivation; `leafs` itself is enough fuel,
since every round strictly shrinks the layer. -/
def get_merkle_tree_row_count (leafs arity : Nat) : Nat :=
  merkle_row_count_go leafs leafs arity

/-- Number of elements of row `r`: `leaf_count` divided by `arity`, `r`
times (the constructor's `layer_elements /= Arity` sequence). -/
def layerSize (leafs arity r : Nat) : Nat := leafs / arity ^ r

/-- First node index of row `r` under the row-major layout
(the constructor's `start_layer_element`). -/
def rowStart (leafs arity : Nat) (r : Nat) : Nat :=
  ((List.range r).map (layerSize leafs arity)).sum

/-- Modelled from the spec: `utilities::get_merkle_tree_len` is not in the
sources.  "`total_node_count` (`len`): sum of per-row element counts across
all rows, derived from `leaf_count` and `arity`." -/
def get_merkle_tree_len (leafs arity : Nat) : Nat :=
  rowStart leafs arity (get_merkle_tree_row_count leafs arity)

/-- One constructor round for a row `r > 0`: node `j` of the new row hashes
the concatenation of the digests of the `arity` children at positions
`j * arity + i` (`i < arity`) of the previous row —
`children_index = (current_element - start_layer_element) * Arity
+ prev_layer_element + i`, expressed relative to the rows. -/
def hashLayer (hashFn : List Nat → element) (arity : Nat) (layer : List element) :
    List element :=
  (List.range (layer.length / arity)).map fun j =>
    hashFn (List.flatten ((List.range arity).map fun i => layer.getD (j * arity + i) []))

/-- The `row_count` rows of digests, starting from the row of leaf digests
(row 0), each further row obtained by `hashLayer` — the constructor's outer
`for (row_number …)` loop. -/
def buildLayers (hashFn : List Nat → element) (arity : Nat) :
    Nat → List element → List (List element)
  | 0, _ => []
  | rows + 1, layer => layer :: buildLayers hashFn arity rows (hashLayer hashFn arity layer)

/-- The edges `add_edge(children_index, current_element, Tree)` recorded
while computing row `r`, in insertion order (`current_element` ascending,
child offset `i` ascending). -/
def rowEdges (leafs arity r : Nat) : List (Nat × Nat) :=
  List.flatten <| (List.range (layerSize leafs arity r)).map fun j =>
    (List.range arity).map fun i =>
      (rowStart leafs arity (r - 1) + (j * arity + i), rowStart leafs arity r + j)

/-- All edges of the graph in insertion order: rows `1 .. row_count - 1`
(row 0 adds no edges). -/
def treeEdges (leafs arity row_count : Nat) : List (Nat × Nat) :=
  List.flatten <| ((List.range row_count).drop 1).map (rowEdges leafs arity)

/-- The state a successful `MerkleTree` constructor run leaves behind:
the counters, the digest of every vertex (`hash_map`, row-major), and the
child-to-parent edge list of the BGL graph. -/
structure MerkleTree where
  leafs : Nat
  len : Nat
  row_count : Nat
  arity : Nat
  hash_map : List element
  edges : List (Nat × Nat)
deriving DecidableEq, Repr

/-- The degenerate state (used only as a default). -/
def emptyTree : MerkleTree :=
  { leafs := 0, len := 0, row_count := 0, arity := 0, hash_map := [], edges := [] }

instance : Inhabited MerkleTree := ⟨emptyTree⟩

/-- The `MerkleTree` constructor.  Its only precondition check is the
assertion `BOOST_ASSERT_MSG(data.size() % Arity == 0, "Wrong leafs number")`,
modelled as the `InvalidLeafCount` error; it fires before any hashing.
Afterwards `leafs`, `len` and `row_count` are set from the utilities, every
row of digests is computed (`buildLayers`), and the child-to-parent edges
are recorded (`treeEdges`). -/
def MerkleTree.build {α : Type} (hashFn : List Nat → element) (serialize : α → List Nat)
    (arity : Nat) (data : List α) : Except MerkleError MerkleTree :=
  if data.length % arity ≠ 0 then .error .invalidLeafCount
  else
    .ok { leafs := data.length,
          len := get_merkle_tree_len data.length arity,
          row_count := get_merkle_tree_row_count data.length arity,
          arity := arity,
          hash_map := (buildLayers hashFn arity (get_merkle_tree_row_count data.length arity)
                        (data.map fun d => hashFn (serialize d))).flatten,
          edges := treeEdges data.length arity (get_merkle_tree_row_count data.length arity) }

/-- The built tree, or the default on a constructor failure. -/
def buildD {α : Type} (hashFn : List Nat → element) (serialize : α → List Nat)
    (arity : Nat) (data : List α) : MerkleTree :=
  ((MerkleTree.build hashFn serialize arity data).toOption).getD emptyTree

/-- The sources of the in-edges of vertex `v`, in edge insertion order —
what `in_edges(v, Tree)` iterates (BGL `bidirectionalS` keeps per-vertex
in-edge lists in insertion order). -/
def MerkleTree.in_sources (t : MerkleTree) (v : Nat) : List Nat :=
  (t.edges.filter fun e => e.2 == v).map Prod.fst

/-- The targets of the out-edges of vertex `v`, in insertion order — what
`out_edges(v, Tree)` / `adjacent_vertices(v, Tree)` iterate. -/
def MerkleTree.out_targets (t : MerkleTree) (v : Nat) : List Nat :=
  (t.edges.filter fun e => e.1 == v).map Prod.snd

/-- Models `MerkleTree::children`: collects the in-edge sources into an array.
For a leaf the C++ returns an `std::array` it never wrote to (indeterminate
values); the model returns the (empty) in-edge source list. -/
def MerkleTree.children (t : MerkleTree) (leaf_index : Nat) : List Nat :=
  t.in_sources leaf_index

/-- Models `MerkleTree::parent`: `tie(ei, edge_end) = out_edges(v, Tree);
return target(*ei, Tree);` — when the out-edge range is empty (the root)
the C++ dereferences the end iterator: undefined behavior, marked `ub`. -/
def MerkleTree.parent (t : MerkleTree) (leaf_index : Nat) : CppResult Nat :=
  match t.out_targets leaf_index with
  | [] => .ub
  | p :: _ => .ok p

/-- Models `MerkleTree::operator[]`: `hash_map[idx]`, an unchecked vector access —
out of bounds is undefined behavior, marked `ub`. -/
def MerkleTree.get (t : MerkleTree) (idx : Nat) : CppResult element :=
  match t.hash_map.get? idx with
  | some d => .ok d
  | none => .ub

/-- Models `MerkleTree::root`: `hash_map[len - 1]`. -/
def MerkleTree.root (t : MerkleTree) : CppResult element :=
  t.get (t.len - 1)

/-- The walk of `MerkleTree::hash_path` after the initial push: follow
`adjacent_vertices` (the single out-edge) upward, pushing each digest.
The fuel only bounds the loop for ill-formed edge lists (on a cyclic graph
the C++ loop would not terminate); for built trees it never runs out. -/
def MerkleTree.hash_path_go (t : MerkleTree) : Nat → Nat → List element → CppResult (List element)
  | 0, _, _ => .ub
  | fuel + 1, v, acc =>
    match t.out_targets v with
    | [] => .ok acc.reverse
    | p :: _ =>
      match t.hash_map.get? p with
      | some d => t.hash_path_go fuel p (d :: acc)
      | none => .ub

/-- Models `MerkleTree::hash_path`: `res.push_back(hash_map[leaf_index])`, then the
`adjacent_vertices` walk up to the first vertex with no out-edge.  The
initial access is unchecked (`ub` out of bounds); no index check of any
kind is performed. -/
def MerkleTree.hash_path (t : MerkleTree) (leaf_index : Nat) : CppResult (List element) :=
  match t.hash_map.get? leaf_index with
  | some d => t.hash_path_go (t.len + 1) leaf_index [d]
  | none => .ub

/-- Models `MerkleTree::get_row_count`. -/
def MerkleTree.get_row_count (t : MerkleTree) : Nat := t.row_count

/-- Models `MerkleTree::get_len`. -/
def MerkleTree.get_len (t : MerkleTree) : Nat := t.len

/-- Models `MerkleTree::get_leafs`. -/
def MerkleTree.get_leafs (t : MerkleTree) : Nat := t.leafs

/-- Modelled from the spec: `proof.hpp` (`MerkleProof`) is not in the
sources.  "Result: `Proof = tree.hashPath(leafIndex)`". -/
def prove (t : MerkleTree) (leaf_index : Nat) : CppResult (List element) :=
  t.hash_path leaf_index

/-- Modelled from the spec: the reachability conjunct of
`MerkleProof::validate` ("the leaf's recorded digest is reachable to
`tree.root()` via the recorded parent chain").  Follows the recorded
out-edges upward from `v`; reports whether the walk ends at the root index
`len - 1`.  The fuel only bounds the walk for ill-formed edge lists; for
built trees it never runs out. -/
def MerkleTree.reaches_root (t : MerkleTree) : Nat → Nat → Bool
  | 0, _ => false
  | fuel + 1, v =>
    match t.out_targets v with
    | [] => v == t.len - 1
    | p :: _ => t.reaches_root fuel p

/-- Modelled from the spec: `proof.hpp` (`MerkleProof::validate`) is not in
the sources.  "Computes `hashFn(serialize(claimedElement))` and compares it,
byte-for-byte, to `tree.digest(leafIndex)` (the value stored at that leaf
position when the tree was built).  Returns `true` only if that equality
holds AND the leaf's recorded digest is reachable to `tree.root()` via the
recorded parent chain." -/
def validate {α : Type} (hashFn : List Nat → element) (serialize : α → List Nat)
    (t : MerkleTree) (leaf_index : Nat) (claimed : α) : Bool :=
  (t.hash_map.getD leaf_index [] == hashFn (serialize claimed))
    && t.reaches_root (t.len + 1) leaf_index

/-- A small concrete hash function for the concrete instances: digest size
2, byte 0 the input length, byte 1 a polynomial fingerprint. -/
def tHash (bs : List Nat) : element :=
  [bs.length % 256, bs.foldl (fun acc b => (acc * 31 + b) % 256) 7]

/-- Eight one-byte leaves, as in the arity-2 tests. -/
def data8 : List (List Nat) := [[0], [1], [2], [3], [4], [5], [6], [7]]

/-- Nine one-byte leaves, as in the arity-3 tests. -/
def data9 : List (List Nat) := [[0], [1], [2], [3], [4], [5], [6], [7], [8]]

/-- Six one-byte leaves: divisible by arity 2 but not a power of 2. -/
def data6 : List (List Nat) := [[0], [1], [2], [3], [4], [5]]

/-- Global index of the ancestor of leaf `j` at row `r` of a perfect tree:
row start plus `j / arity ^ r`. -/
def pathIdx (a k j : Nat) : List Nat :=
  (List.range (k + 1)).map fun r => rowStart (a ^ k) a r + j / a ^ r

/-! ## A state-passing view of the query interface -/

/-- One query of the read interface of a built tree. -/
inductive Query where
  | qRoot
  | qChildren (i : Nat)
  | qParent (i : Nat)
  | qHashPath (i : Nat)
  | qGet (i : Nat)
  | qRowCount
  | qLen
  | qLeafs
deriving DecidableEq, Repr

/-- Answer of one query. -/
inductive QueryResult where
  | rDigest (d : CppResult element)
  | rPath (l : CppResult (List element))
  | rIndex (r : CppResult Nat)
  | rIndices (l : List Nat)
  | rCount (n : Nat)
deriving DecidableEq, Repr

/-- Runs one query as a state transformer, following the C++ member bodies:
`root`, `children`, `parent`, `hash_path`, `operator[]`, `get_row_count`,
`get_len` and `get_leafs` only read `hash_map` and the graph, so the
resulting state is the input state. -/
def MerkleTree.runQuery (t : MerkleTree) : Query → QueryResult × MerkleTree
  | .qRoot => (.rDigest t.root, t)
  | .qChildren i => (.rIndices (t.children i), t)
  | .qParent i => (.rIndex (t.parent i), t)
  | .qHashPath i => (.rPath (t.hash_path i), t)
  | .qGet i => (.rDigest (t.get i), t)
  | .qRowCount => (.rCount t.get_row_count, t)
  | .qLen => (.rCount t.get_len, t)
  | .qLeafs => (.rCount t.get_leafs, t)

/-- Runs a sequence of queries, threading the state. -/
def MerkleTree.runQueries (t : MerkleTree) : List Query → List QueryResult × MerkleTree
  | [] => ([], t)
  | q :: qs =>
    let s := t.runQuery q
    let rest := s.2.runQueries qs
    (s.1 :: rest.1, rest.2)

/-! ## Generic list lemmas -/

lemma flatten_filter {β : Type} (p : β → Bool) :
    ∀ (l : List (List β)), l.flatten.filter p = (l.map (List.filter p)).flatten
  | [] => rfl
  | x :: xs => by
    simp only [List.flatten_cons, List.filter_append, List.map_cons]
    rw [flatten_filter p xs]

lemma range_map_flatten_nil {β : Type} (g : Nat → List β) :
    ∀ (m : Nat), (∀ j, j < m → g j = []) → ((List.range m).map g).flatten = []
  | 0, _ => rfl
  | m + 1, h => by
    rw [List.range_succ, List.map_append, List.flatten_append,
      range_map_flatten_nil g m (fun j hj => h j (by omega))]
    simp [h m (by omega)]

lemma range_map_flatten_single {β : Type} (g : Nat → List β) :
    ∀ (m j₀ : Nat), j₀ < m → (∀ j, j < m → j ≠ j₀ → g j = []) →
      ((List.range m).map g).flatten = g j₀
  | 0, _, hj, _ => absurd hj (by omega)
  | m + 1, j₀, hj, h => by
    rw [List.range_succ, List.map_append, List.flatten_append]
    by_cases hc : j₀ = m
    · subst hc
      rw [range_map_flatten_nil g j₀ (fun j hjm => h j (by omega) (by omega))]
      simp
    · rw [range_map_flatten_single g m j₀ (by omega)
        (fun j hjm hne => h j (by omega) hne)]
      simp [h m (by omega) (fun he => hc he.symm)]

lemma range_map_filter_nil {β : Type} (p : β → Bool) (g : Nat → β) (m : Nat)
    (h : ∀ i, i < m → p (g i) = false) : ((List.range m).map g).filter p = [] := by
  rw [List.filter_eq_nil_iff]
  intro b hb
  obtain ⟨i, hi, rfl⟩ := List.mem_map.mp hb
  simp [h i (List.mem_range.mp hi)]

lemma range_map_filter_single {β : Type} (p : β → Bool) (g : Nat → β) :
    ∀ (m i₀ : Nat), i₀ < m → (∀ i, i < m → (p (g i) = true ↔ i = i₀)) →
      ((List.range m).map g).filter p = [g i₀]
  | 0, _, hi, _ => absurd hi (by omega)
  | m + 1, i₀, hi, h => by
    rw [List.range_succ, List.map_append, List.filter_append]
    by_cases hc : i₀ = m
    · subst hc
      rw [range_map_filter_nil p g i₀ (fun i him => by
        rcases Bool.eq_false_or_eq_true (p (g i)) with ht | hf
        · exact absurd ((h i (by omega)).mp ht) (by omega)
        · exact hf)]
      simp [(h i₀ (by omega)).mpr rfl]
    · rw [range_map_filter_single p g m i₀ (by omega) (fun i him => h i (by omega))]
      have hm : p (g m) = false := by
        rcases Bool.eq_false_or_eq_true (p (g m)) with ht | hf
        · exact absurd ((h m (by omega)).mp ht) (fun he => hc he.symm)
        · exact hf
      simp [hm]

lemma range_map_filter_self {β : Type} (p : β → Bool) (g : Nat → β) (m : Nat)
    (h : ∀ i, i < m → p (g i) = true) :
    ((List.range m).map g).filter p = (List.range m).map g := by
  rw [List.filter_eq_self]
  intro b hb
  obtain ⟨i, hi, rfl⟩ := List.mem_map.mp hb
  exact h i (List.mem_range.mp hi)

/-! ## Row arithmetic -/

lemma layerSize_zero (n a : Nat) : layerSize n a 0 = n := by
  simp [layerSize]

lemma layerSize_succ (n a r : Nat) : layerSize n a (r + 1) = layerSize (n / a) a r := by
  unfold layerSize
  rw [Nat.pow_succ', ← Nat.div_div_eq_div_mul]

lemma layerSize_succ_right (n a r : Nat) :
    layerSize n a (r + 1) = layerSize n a r / a := by
  unfold layerSize
  rw [Nat.pow_succ, ← Nat.div_div_eq_div_mul]

lemma rowStart_zero (n a : Nat) : rowStart n a 0 = 0 := rfl

lemma rowStart_succ (n a r : Nat) :
    rowStart n a (r + 1) = rowStart n a r + layerSize n a r := by
  unfold rowStart
  rw [List.range_succ, List.map_append, List.sum_append]
  simp

lemma rowStart_shift (n a r : Nat) :
    rowStart n a (r + 1) = n + rowStart (n / a) a r := by
  unfold rowStart
  rw [List.range_succ_eq_map, List.map_cons, List.map_map, List.sum_cons,
    layerSize_zero]
  congr 1
  refine congrArg List.sum ?_
  apply List.map_congr_left
  intro i _
  exact layerSize_succ n a i

lemma rowStart_mono (n a : Nat) {r r2 : Nat} (h : r ≤ r2) :
    rowStart n a r ≤ rowStart n a r2 := by
  obtain ⟨d, rfl⟩ := Nat.exists_eq_add_of_le h
  induction d with
  | zero => exact le_refl _
  | succ d ih =>
    rw [show r + (d + 1) = (r + d) + 1 by omega, rowStart_succ]
    omega

lemma layerSize_mul_le (n a r : Nat) : layerSize n a (r + 1) * a ≤ layerSize n a r := by
  rw [layerSize_succ_right]
  exact Nat.div_mul_le_self _ _

lemma row_decomp_lt (n a : Nat) {r j : Nat} (hj : j < layerSize n a r) :
    rowStart n a r + j < rowStart n a (r + 1) := by
  rw [rowStart_succ]
  omega

lemma row_decomp_unique (n a : Nat) {r j r2 j2 : Nat} (hj : j < layerSize n a r)
    (hj2 : j2 < layerSize n a r2) (he : rowStart n a r + j = rowStart n a r2 + j2) :
    r = r2 ∧ j = j2 := by
  rcases Nat.lt_trichotomy r r2 with hlt | heq | hgt
  · have h1 := row_decomp_lt n a hj
    have h2 := rowStart_mono n a (show r + 1 ≤ r2 by omega)
    have h3 : rowStart n a r2 ≤ rowStart n a r2 + j2 := by omega
    omega
  · subst heq
    omega
  · have h1 := row_decomp_lt n a hj2
    have h2 := rowStart_mono n a (show r2 + 1 ≤ r by omega)
    omega

/-! ## Digest layout lemmas -/

lemma hashLayer_length (f : List Nat → element) (a : Nat) (L : List element) :
    (hashLayer f a L).length = L.length / a := by
  simp [hashLayer]

lemma iterate_hashLayer_length (f : List Nat → element) (a : Nat) :
    ∀ (r : Nat) (L : List element), ((hashLayer f a)^[r] L).length = L.length / a ^ r
  | 0, L => by simp [layerSize]
  | r + 1, L => by
    rw [Function.iterate_succ_apply, iterate_hashLayer_length f a r (hashLayer f a L),
      hashLayer_length, Nat.div_div_eq_div_mul, ← Nat.pow_succ']

lemma hashLayer_get? (f : List Nat → element) (a : Nat) (L : List element) {j : Nat}
    (hj : j < L.length / a) :
    (hashLayer f a L).get? j =
      some (f (List.flatten ((List.range a).map fun i => L.getD (j * a + i) []))) := by
  unfold hashLayer
  rw [List.get?_map, List.get?_range hj]
  rfl

lemma buildLayers_flatten_length (f : List Nat → element) (a : Nat) :
    ∀ (m : Nat) (L : List element),
      (buildLayers f a m L).flatten.length = rowStart L.length a m
  | 0, L => by simp [buildLayers, rowStart]
  | m + 1, L => by
    show (L :: buildLayers f a m (hashLayer f a L)).flatten.length = _
    simp only [List.flatten_cons, List.length_append]
    rw [buildLayers_flatten_length f a m (hashLayer f a L), hashLayer_length,
      rowStart_shift]

lemma buildLayers_flatten_get? (f : List Nat → element) (a : Nat) :
    ∀ (r m : Nat) (L : List element) (j : Nat), r < m →
      j < ((hashLayer f a)^[r] L).length →
      (buildLayers f a m L).flatten.get? (rowStart L.length a r + j) =
        ((hashLayer f a)^[r] L).get? j
  | 0, 0, _, _, hr, _ => absurd hr (by omega)
  | 0, m + 1, L, j, _, hj => by
    show (L :: buildLayers f a m (hashLayer f a L)).flatten.get? _ = _
    simp only [List.flatten_cons, Function.iterate_zero_apply] at hj ⊢
    rw [rowStart_zero, Nat.zero_add, List.get?_append hj]
  | r + 1, 0, _, _, hr, _ => absurd hr (by omega)
  | r + 1, m + 1, L, j, hr, hj => by
    show (L :: buildLayers f a m (hashLayer f a L)).flatten.get? _ = _
    simp only [List.flatten_cons]
    rw [rowStart_shift, Nat.add_assoc,
      List.get?_append_right (by omega), Nat.add_sub_cancel_left]
    have hlen : rowStart (L.length / a) a r = rowStart (hashLayer f a L).length a r := by
      rw [hashLayer_length]
    rw [hlen, buildLayers_flatten_get? f a r m (hashLayer f a L) j (by omega)
      (by rw [← Function.iterate_succ_apply]; exact hj)]
    rw [← Function.iterate_succ_apply]

/-- Unfolds a successful `MerkleTree::build` run: the precondition that held
and the exact state constructed. -/
lemma build_ok {α : Type} {f : List Nat → element} {ser : α → List Nat} {a : Nat}
    {data : List α} {t : MerkleTree} (h : MerkleTree.build f ser a data = .ok t) :
    data.length % a = 0 ∧
    t = { leafs := data.length,
          len := get_merkle_tree_len data.length a,
          row_count := get_merkle_tree_row_count data.length a,
          arity := a,
          hash_map := (buildLayers f a (get_merkle_tree_row_count data.length a)
                        (data.map fun d => f (ser d))).flatten,
          edges := treeEdges data.length a (get_merkle_tree_row_count data.length a) } := by
  unfold MerkleTree.build at h
  split at h
  · exact absurd h (by simp)
  · rename_i hc
    simp only [Except.ok.injEq] at h
    exact ⟨by omega, h.symm⟩

/-- Length of the digest container of a built tree: exactly `len` entries. -/
lemma built_hash_map_length {α : Type} {f : List Nat → element} {ser : α → List Nat}
    {a : Nat} {data : List α} {t : MerkleTree}
    (h : MerkleTree.build f ser a data = .ok t) : t.hash_map.length = t.len := by
  obtain ⟨-, rfl⟩ := build_ok h
  simp only [get_merkle_tree_len]
  rw [buildLayers_flatten_length]
  simp

/-- Digest of node `j` of row `r` of a built tree, as an entry of the
iterated `hashLayer` rows. -/
lemma built_digest {α : Type} {f : List Nat → element} {ser : α → List Nat}
    {a : Nat} {data : List α} {t : MerkleTree}
    (h : MerkleTree.build f ser a data = .ok t) {r j : Nat} (hr : r < t.row_count)
    (hj : j < layerSize data.length a r) :
    t.hash_map.get? (rowStart data.length a r + j) =
      ((hashLayer f a)^[r] (data.map fun d => f (ser d))).get? j := by
  obtain ⟨-, rfl⟩ := build_ok h
  have hlen : ((hashLayer f a)^[r] (data.map fun d => f (ser d))).length =
      layerSize data.length a r := by
    rw [iterate_hashLayer_length]
    simp [layerSize]
  have := buildLayers_flatten_get? f a r (get_merkle_tree_row_count data.length a)
    (data.map fun d => f (ser d)) j (by simpa using hr) (by omega)
  simpa using this

/-! ## Edge structure lemmas -/

lemma treeEdges_eq (n a rc : Nat) :
    treeEdges n a rc = ((List.range (rc - 1)).map fun r => rowEdges n a (r + 1)).flatten := by
  unfold treeEdges
  cases rc with
  | zero => rfl
  | succ m =>
    rw [List.range_succ_eq_map]
    simp only [List.drop_succ_cons, List.drop_zero, List.map_map, Nat.add_sub_cancel]
    rfl

lemma rowEdges_mem {n a r : Nat} {e : Nat × Nat} (he : e ∈ rowEdges n a r) :
    ∃ j i, j < layerSize n a r ∧ i < a ∧
      e = (rowStart n a (r - 1) + (j * a + i), rowStart n a r + j) := by
  unfold rowEdges at he
  rw [List.mem_flatten] at he
  obtain ⟨l, hl, hel⟩ := he
  obtain ⟨j, hj, rfl⟩ := List.mem_map.mp hl
  obtain ⟨i, hi, rfl⟩ := List.mem_map.mp hel
  exact ⟨j, i, List.mem_range.mp hj, List.mem_range.mp hi, rfl⟩

lemma rowEdges_fst_lt {n a r : Nat} (hr : 1 ≤ r) {e : Nat × Nat}
    (he : e ∈ rowEdges n a r) : e.1 < rowStart n a r := by
  obtain ⟨j, i, hj, hi, rfl⟩ := rowEdges_mem he
  have hml := layerSize_mul_le n a (r - 1)
  rw [show r - 1 + 1 = r by omega] at hml
  have h3 : j * a + i < layerSize n a r * a := by
    have hj1 : j + 1 ≤ layerSize n a r := hj
    calc j * a + i < j * a + a := by omega
    _ = (j + 1) * a := by ring
    _ ≤ layerSize n a r * a := Nat.mul_le_mul_right a hj1
  have h4 : j * a + i < layerSize n a (r - 1) := by omega
  have h5 := row_decomp_lt n a h4
  rw [show r - 1 + 1 = r by omega] at h5
  simpa using h5

lemma rowEdges_snd_range {n a r : Nat} {e : Nat × Nat} (he : e ∈ rowEdges n a r) :
    rowStart n a r ≤ e.2 ∧ e.2 < rowStart n a (r + 1) := by
  obtain ⟨j, i, hj, hi, rfl⟩ := rowEdges_mem he
  exact ⟨by simp, row_decomp_lt n a hj⟩

lemma treeEdges_fst_lt {n a rc : Nat} {e : Nat × Nat} (he : e ∈ treeEdges n a rc) :
    e.1 < rowStart n a (rc - 1) := by
  rw [treeEdges_eq, List.mem_flatten] at he
  obtain ⟨l, hl, hel⟩ := he
  obtain ⟨r, hr, rfl⟩ := List.mem_map.mp hl
  have hrr := List.mem_range.mp hr
  have h1 := rowEdges_fst_lt (by omega) hel
  have h2 : rowStart n a (r + 1) ≤ rowStart n a (rc - 1) :=
    rowStart_mono n a (by omega)
  omega

/-- Arithmetic between a Euclidean decomposition and `%`: for `i < a`,
`jv / a * a + i = jv` exactly when `i = jv % a`. -/
lemma div_mod_decomp {a jv i : Nat} (hi : i < a) :
    jv / a * a + i = jv ↔ i = jv % a := by
  have hd := Nat.div_add_mod jv a
  have hd2 : jv / a * a + jv % a = jv := by
    rw [Nat.mul_comm]
    exact hd
  constructor
  · intro he
    exact Nat.add_left_cancel (he.trans hd2.symm)
  · intro he
    subst he
    exact hd2

lemma treeEdges_out {n a rc rv jv : Nat} (ha : 1 ≤ a) (hrv : rv + 1 < rc)
    (hjv : jv < layerSize n a rv) (hdiv : jv / a < layerSize n a (rv + 1)) :
    ((treeEdges n a rc).filter fun e => e.1 == rowStart n a rv + jv).map Prod.snd
      = [rowStart n a (rv + 1) + jv / a] := by
  rw [treeEdges_eq, flatten_filter, List.map_map]
  have hvlt := row_decomp_lt n a hjv
  rw [range_map_flatten_single _ (rc - 1) rv (by omega) ?hrows]
  case hrows =>
    intro r hr hne
    simp only [Function.comp_apply]
    rw [List.filter_eq_nil_iff]
    intro e he
    have h1 := rowEdges_fst_lt (by omega) he
    obtain ⟨j, i, hj, hi, rfl⟩ := rowEdges_mem he
    simp only [beq_iff_eq]
    intro hcontra
    have h2 : rowStart n a r ≤ rowStart n a (r + 1 - 1) + (j * a + i) := by
      simp only [Nat.add_sub_cancel]
      omega
    rcases Nat.lt_or_ge r rv with hlt | hge
    · have h3 : rowStart n a (r + 1) ≤ rowStart n a rv := rowStart_mono n a (by omega)
      omega
    · have hgt : rv < r := by omega
      have h4 : rowStart n a (rv + 1) ≤ rowStart n a r := rowStart_mono n a (by omega)
      omega
  simp only [Function.comp_apply, Nat.add_sub_cancel]
  unfold rowEdges
  simp only [Nat.add_sub_cancel]
  rw [flatten_filter, List.map_map]
  rw [range_map_flatten_single _ (layerSize n a (rv + 1)) (jv / a) hdiv ?hblocks]
  case hblocks =>
    intro j hj hne
    simp only [Function.comp_apply]
    apply range_map_filter_nil
    intro i hi
    simp only [beq_eq_false_iff_ne, ne_eq, Nat.add_right_inj]
    intro hcontra
    apply hne
    have h5 : (j * a + i) / a = j := by
      rw [show j * a + i = i + a * j by ring, Nat.add_mul_div_left _ _ (by omega),
        Nat.div_eq_of_lt hi]
      omega
    rw [← hcontra, h5]
  simp only [Function.comp_apply]
  rw [range_map_filter_single _ _ a (jv % a) (Nat.mod_lt jv (by omega)) ?hmatch]
  case hmatch =>
    intro i hi
    simp only [beq_iff_eq, Nat.add_right_inj]
    exact div_mod_decomp hi
  rfl

lemma treeEdges_in {n a rc rv jv : Nat} (hrv1 : 1 ≤ rv) (hrv : rv < rc)
    (hjv : jv < layerSize n a rv) :
    ((treeEdges n a rc).filter fun e => e.2 == rowStart n a rv + jv).map Prod.fst
      = (List.range a).map fun i => rowStart n a (rv - 1) + (jv * a + i) := by
  rw [treeEdges_eq, flatten_filter, List.map_map]
  have hvlt := row_decomp_lt n a hjv
  rw [range_map_flatten_single _ (rc - 1) (rv - 1) (by omega) ?hrows]
  case hrows =>
    intro r hr hne
    simp only [Function.comp_apply]
    rw [List.filter_eq_nil_iff]
    intro e he
    have hsnd := rowEdges_snd_range he
    simp only [beq_iff_eq]
    intro hcontra
    rcases Nat.lt_or_ge (r + 1) rv with hlt | hge
    · have h3 : rowStart n a (r + 1 + 1) ≤ rowStart n a rv := rowStart_mono n a (by omega)
      omega
    · have hgt : rv < r + 1 := by omega
      have h4 : rowStart n a (rv + 1) ≤ rowStart n a (r + 1) := rowStart_mono n a (by omega)
      omega
  simp only [Function.comp_apply]
  rw [show rv - 1 + 1 = rv by omega]
  unfold rowEdges
  rw [flatten_filter, List.map_map]
  rw [range_map_flatten_single _ (layerSize n a rv) jv hjv ?hblocks]
  case hblocks =>
    intro j hj hne
    simp only [Function.comp_apply]
    apply range_map_filter_nil
    intro i hi
    simp only [beq_eq_false_iff_ne, ne_eq, Nat.add_right_inj]
    exact hne
  simp only [Function.comp_apply]
  rw [range_map_filter_self _ _ a (fun i hi => by simp)]
  rw [List.map_map]
  rfl

/-! ## Edge lemmas on built trees -/

lemma built_out_targets {α : Type} {f : List Nat → element} {ser : α → List Nat}
    {a : Nat} {data : List α} {t : MerkleTree}
    (h : MerkleTree.build f ser a data = .ok t) (ha : 1 ≤ a) {rv jv : Nat}
    (hrv : rv + 1 < get_merkle_tree_row_count data.length a)
    (hjv : jv < layerSize data.length a rv)
    (hdiv : jv / a < layerSize data.length a (rv + 1)) :
    t.out_targets (rowStart data.length a rv + jv)
      = [rowStart data.length a (rv + 1) + jv / a] := by
  obtain ⟨-, rfl⟩ := build_ok h
  unfold MerkleTree.out_targets
  exact treeEdges_out ha hrv hjv hdiv

lemma built_out_top {α : Type} {f : List Nat → element} {ser : α → List Nat}
    {a : Nat} {data : List α} {t : MerkleTree}
    (h : MerkleTree.build f ser a data = .ok t) {v : Nat}
    (hv : rowStart data.length a (get_merkle_tree_row_count data.length a - 1) ≤ v) :
    t.out_targets v = [] := by
  obtain ⟨-, rfl⟩ := build_ok h
  unfold MerkleTree.out_targets
  have hnil : (treeEdges data.length a (get_merkle_tree_row_count data.length a)).filter
      (fun e => e.1 == v) = [] := by
    rw [List.filter_eq_nil_iff]
    intro e he
    have := treeEdges_fst_lt he
    simp only [beq_iff_eq]
    omega
  rw [hnil]
  rfl

lemma built_in_sources {α : Type} {f : List Nat → element} {ser : α → List Nat}
    {a : Nat} {data : List α} {t : MerkleTree}
    (h : MerkleTree.build f ser a data = .ok t) {rv jv : Nat} (hrv1 : 1 ≤ rv)
    (hrv : rv < get_merkle_tree_row_count data.length a)
    (hjv : jv < layerSize data.length a rv) :
    t.in_sources (rowStart data.length a rv + jv)
      = (List.range a).map fun i => rowStart data.length a (rv - 1) + (jv * a + i) := by
  obtain ⟨-, rfl⟩ := build_ok h
  unfold MerkleTree.in_sources
  exact treeEdges_in hrv1 hrv hjv

/-! ## The row arithmetic for powers of the arity -/

lemma merkle_row_count_go_congr :
    ∀ (f1 f2 x a : Nat), x ≤ f1 → x ≤ f2 →
      merkle_row_count_go f1 x a = merkle_row_count_go f2 x a
  | 0, 0, _, _, _, _ => rfl
  | 0, f2 + 1, x, a, h1, _ => by
    have hx : x = 0 := by omega
    subst hx
    simp [merkle_row_count_go]
  | f1 + 1, 0, x, a, _, h2 => by
    have hx : x = 0 := by omega
    subst hx
    simp [merkle_row_count_go]
  | f1 + 1, f2 + 1, x, a, h1, h2 => by
    simp only [merkle_row_count_go]
    by_cases hc : x ≤ 1 ∨ a ≤ 1
    · rw [if_pos hc, if_pos hc]
    · rw [if_neg hc, if_neg hc]
      push_neg at hc
      have hx : x / a < x := Nat.div_lt_self (by omega) (by omega)
      rw [merkle_row_count_go_congr f1 f2 (x / a) a (by omega) (by omega)]

/-- The recurrence the spec describes: one row when the layer is down to a
single element (or the derivation is undefined), else one more than the
count for the divided layer. -/
lemma rc_eq (n a : Nat) :
    get_merkle_tree_row_count n a
      = if n ≤ 1 ∨ a ≤ 1 then 1 else 1 + get_merkle_tree_row_count (n / a) a := by
  unfold get_merkle_tree_row_count
  cases n with
  | zero => simp [merkle_row_count_go]
  | succ m =>
    show merkle_row_count_go (m + 1) (m + 1) a = _
    simp only [merkle_row_count_go]
    by_cases hc : m + 1 ≤ 1 ∨ a ≤ 1
    · rw [if_pos hc, if_pos hc]
    · rw [if_neg hc, if_neg hc]
      push_neg at hc
      have hx : (m + 1) / a < m + 1 := Nat.div_lt_self (by omega) (by omega)
      rw [merkle_row_count_go_congr m ((m + 1) / a) ((m + 1) / a) a (by omega) (by omega)]

lemma rc_pos (n a : Nat) : 1 ≤ get_merkle_tree_row_count n a := by
  rw [rc_eq]
  split <;> omega

lemma rc_pow (a : Nat) (ha : 2 ≤ a) :
    ∀ k, get_merkle_tree_row_count (a ^ k) a = k + 1
  | 0 => by
    rw [rc_eq]
    simp
  | k + 1 => by
    rw [rc_eq]
    have hbig : 2 ≤ a ^ (k + 1) := le_trans ha (Nat.le_self_pow (by omega) a)
    rw [if_neg (by omega)]
    rw [show a ^ (k + 1) / a = a ^ k by
      rw [Nat.pow_succ]
      exact Nat.mul_div_cancel _ (by omega)]
    rw [rc_pow a ha k]
    omega

lemma layerSize_pow (a : Nat) (ha : 2 ≤ a) (r k : Nat) (hr : r ≤ k) :
    layerSize (a ^ k) a r = a ^ (k - r) := by
  unfold layerSize
  exact Nat.pow_div hr (by omega)

lemma le_rowStart_pow (a : Nat) (ha : 2 ≤ a) (k : Nat) :
    ∀ r, r ≤ k + 1 → r ≤ rowStart (a ^ k) a r
  | 0, _ => by omega
  | r + 1, hr => by
    rw [rowStart_succ]
    have h1 := le_rowStart_pow a ha k r (by omega)
    have h2 : 1 ≤ layerSize (a ^ k) a r := by
      rw [layerSize_pow a ha r k (by omega)]
      exact Nat.pos_pow_of_pos _ (by omega)
    omega

lemma len_pow {a : Nat} (ha : 2 ≤ a) {k : Nat} :
    get_merkle_tree_len (a ^ k) a = rowStart (a ^ k) a k + 1 := by
  unfold get_merkle_tree_len
  rw [rc_pow a ha k, rowStart_succ, layerSize_pow a ha k k (le_refl k)]
  simp

lemma built_len {α : Type} {f : List Nat → element} {ser : α → List Nat}
    {a : Nat} {data : List α} {t : MerkleTree}
    (h : MerkleTree.build f ser a data = .ok t) :
    t.len = get_merkle_tree_len data.length a := by
  obtain ⟨-, rfl⟩ := build_ok h
  rfl

lemma built_row_count {α : Type} {f : List Nat → element} {ser : α → List Nat}
    {a : Nat} {data : List α} {t : MerkleTree}
    (h : MerkleTree.build f ser a data = .ok t) :
    t.row_count = get_merkle_tree_row_count data.length a := by
  obtain ⟨-, rfl⟩ := build_ok h
  rfl

lemma built_leafs {α : Type} {f : List Nat → element} {ser : α → List Nat}
    {a : Nat} {data : List α} {t : MerkleTree}
    (h : MerkleTree.build f ser a data = .ok t) : t.leafs = data.length := by
  obtain ⟨-, rfl⟩ := build_ok h
  rfl

lemma built_arity {α : Type} {f : List Nat → element} {ser : α → List Nat}
    {a : Nat} {data : List α} {t : MerkleTree}
    (h : MerkleTree.build f ser a data = .ok t) : t.arity = a := by
  obtain ⟨-, rfl⟩ := build_ok h
  rfl

/-- Bound for a child offset: the `arity` children of node `j` of row `r`
all lie inside row `r - 1`. -/
lemma child_lt {n a r j i : Nat} (hr : 1 ≤ r) (hj : j < layerSize n a r)
    (hi : i < a) : j * a + i < layerSize n a (r - 1) := by
  have hml := layerSize_mul_le n a (r - 1)
  rw [show r - 1 + 1 = r by omega] at hml
  have h3 : j * a + i < layerSize n a r * a := by
    have hj1 : j + 1 ≤ layerSize n a r := hj
    calc j * a + i < j * a + a := by omega
    _ = (j + 1) * a := by ring
    _ ≤ layerSize n a r * a := Nat.mul_le_mul_right a hj1
  omega

/-! ## Perfect trees: leaf count a power of the arity -/

lemma perfect_parent {α : Type} {f : List Nat → element} {ser : α → List Nat}
    {a : Nat} {data : List α} {t : MerkleTree} {k : Nat}
    (hb : MerkleTree.build f ser a data = .ok t) (ha : 2 ≤ a)
    (hn : data.length = a ^ k) {r j : Nat} (hr : r < k) (hj : j < a ^ (k - r)) :
    t.parent (rowStart (a ^ k) a r + j)
      = .ok (rowStart (a ^ k) a (r + 1) + j / a) := by
  have hrc : get_merkle_tree_row_count data.length a = k + 1 := by
    rw [hn]
    exact rc_pow a ha k
  have hsz : ∀ s, s ≤ k → layerSize data.length a s = a ^ (k - s) := by
    intro s hs
    rw [hn]
    exact layerSize_pow a ha s k hs
  have hjv : j < layerSize data.length a r := by
    rw [hsz r (by omega)]
    exact hj
  have hdiv : j / a < layerSize data.length a (r + 1) := by
    rw [hsz (r + 1) (by omega), Nat.div_lt_iff_lt_mul (by omega)]
    rw [show a ^ (k - (r + 1)) * a = a ^ (k - r) by
      rw [← Nat.pow_succ]
      congr 1
      omega]
    exact hj
  have hout := built_out_targets hb (by omega) (by omega) hjv hdiv
  rw [hn] at hout
  unfold MerkleTree.parent
  rw [hout]

lemma perfect_out_top {α : Type} {f : List Nat → element} {ser : α → List Nat}
    {a : Nat} {data : List α} {t : MerkleTree} {k : Nat}
    (hb : MerkleTree.build f ser a data = .ok t) (ha : 2 ≤ a)
    (hn : data.length = a ^ k) :
    t.out_targets (rowStart (a ^ k) a k) = [] := by
  have hrc : get_merkle_tree_row_count data.length a = k + 1 := by
    rw [hn]
    exact rc_pow a ha k
  exact built_out_top hb (show rowStart data.length a
    (get_merkle_tree_row_count data.length a - 1) ≤ rowStart (a ^ k) a k by
      rw [hrc, hn]
      simp)

lemma perfect_len {α : Type} {f : List Nat → element} {ser : α → List Nat}
    {a : Nat} {data : List α} {t : MerkleTree} {k : Nat}
    (hb : MerkleTree.build f ser a data = .ok t) (ha : 2 ≤ a)
    (hn : data.length = a ^ k) : t.len = rowStart (a ^ k) a k + 1 := by
  rw [built_len hb, hn]
  exact len_pow ha

/-- Every node index of a row of a perfect tree is inside the digest
container. -/
lemma perfect_idx_lt_len {α : Type} {f : List Nat → element} {ser : α → List Nat}
    {a : Nat} {data : List α} {t : MerkleTree} {k : Nat}
    (hb : MerkleTree.build f ser a data = .ok t) (ha : 2 ≤ a)
    (hn : data.length = a ^ k) {r j : Nat} (hr : r ≤ k) (hj : j < a ^ (k - r)) :
    rowStart (a ^ k) a r + j < t.len := by
  have hjv : j < layerSize (a ^ k) a r := by
    rw [layerSize_pow a ha r k hr]
    exact hj
  have h1 := row_decomp_lt (a ^ k) a hjv
  have h2 : rowStart (a ^ k) a (r + 1) ≤ rowStart (a ^ k) a (k + 1) :=
    rowStart_mono _ a (by omega)
  have h3 : rowStart (a ^ k) a (k + 1) = rowStart (a ^ k) a k + 1 := by
    rw [rowStart_succ, layerSize_pow a ha k k (le_refl k)]
    simp
  have h4 := perfect_len hb ha hn
  omega

lemma perfect_hash_path_go {α : Type} {f : List Nat → element} {ser : α → List Nat}
    {a : Nat} {data : List α} {t : MerkleTree} {k : Nat}
    (hb : MerkleTree.build f ser a data = .ok t) (ha : 2 ≤ a)
    (hn : data.length = a ^ k) {j : Nat} (hj : j < a ^ k) :
    ∀ (d r : Nat) (acc : List element) (fuel : Nat), r + d = k → d < fuel →
      t.hash_path_go fuel (rowStart (a ^ k) a r + j / a ^ r) acc
        = .ok (acc.reverse ++ (List.range' (r + 1) d).map fun s =>
            t.hash_map.getD (rowStart (a ^ k) a s + j / a ^ s) [])
  | 0, r, acc, fuel + 1, hrd, hf => by
    have hr : r = k := by omega
    subst hr
    have hd0 : j / a ^ r = 0 := Nat.div_eq_of_lt hj
    unfold MerkleTree.hash_path_go
    rw [hd0]
    rw [show rowStart (a ^ r) a r + 0 = rowStart (a ^ r) a r by omega]
    rw [perfect_out_top hb ha hn]
    simp
  | d + 1, r, acc, fuel + 1, hrd, hf => by
    have hrk : r < k := by omega
    have hdivlt : ∀ s, s ≤ k → j / a ^ s < a ^ (k - s) := by
      intro s hs
      rw [Nat.div_lt_iff_lt_mul (Nat.pos_pow_of_pos s (by omega))]
      rw [show a ^ (k - s) * a ^ s = a ^ k by
        rw [← pow_add]
        congr 1
        omega]
      exact hj
    unfold MerkleTree.hash_path_go
    have hout : t.out_targets (rowStart data.length a r + j / a ^ r)
        = [rowStart data.length a (r + 1) + j / a ^ r / a] := by
      apply built_out_targets hb (by omega)
      · rw [hn, rc_pow a ha k]
        omega
      · rw [hn, layerSize_pow a ha r k (by omega)]
        exact hdivlt r (by omega)
      · rw [hn, layerSize_pow a ha (r + 1) k (by omega)]
        rw [Nat.div_div_eq_div_mul, ← Nat.pow_succ]
        exact hdivlt (r + 1) (by omega)
    rw [hn] at hout
    rw [show j / a ^ r / a = j / a ^ (r + 1) by
      rw [Nat.div_div_eq_div_mul, ← Nat.pow_succ]] at hout
    have hlt : rowStart (a ^ k) a (r + 1) + j / a ^ (r + 1) < t.hash_map.length := by
      rw [built_hash_map_length hb]
      exact perfect_idx_lt_len hb ha hn (by omega) (hdivlt (r + 1) (by omega))
    have hget : t.hash_map.get? (rowStart (a ^ k) a (r + 1) + j / a ^ (r + 1))
        = some (t.hash_map.getD (rowStart (a ^ k) a (r + 1) + j / a ^ (r + 1)) []) := by
      rw [List.get?_eq_getElem?, List.getD_eq_getElem?_getD, List.getElem?_eq_getElem hlt]
      rfl
    simp only [hout, hget]
    rw [perfect_hash_path_go hb ha hn hj d (r + 1) _ fuel (by omega) (by omega)]
    rw [List.range'_succ]
    simp

lemma pathIdx_getD {a k j r : Nat} (hr : r < k + 1) :
    (pathIdx a k j).getD r 0 = rowStart (a ^ k) a r + j / a ^ r := by
  unfold pathIdx
  rw [List.getD_eq_getElem?_getD, List.getElem?_map, List.getElem?_range hr]
  rfl

lemma pathIdx_head {a k j : Nat} : (pathIdx a k j).head? = some j := by
  unfold pathIdx
  rw [List.range_succ_eq_map]
  simp [rowStart_zero]

lemma pathIdx_getLast {a k j : Nat} (hj : j < a ^ k) :
    (pathIdx a k j).getLast? = some (rowStart (a ^ k) a k) := by
  unfold pathIdx
  rw [List.getLast?_map, List.range_succ, List.getLast?_concat]
  simp [Nat.div_eq_of_lt hj]

lemma perfect_hash_path {α : Type} {f : List Nat → element} {ser : α → List Nat}
    {a : Nat} {data : List α} {t : MerkleTree} {k : Nat}
    (hb : MerkleTree.build f ser a data = .ok t) (ha : 2 ≤ a)
    (hn : data.length = a ^ k) {j : Nat} (hj : j < a ^ k) :
    t.hash_path j = .ok ((pathIdx a k j).map fun v => t.hash_map.getD v []) := by
  unfold MerkleTree.hash_path
  have hjlen : j < t.hash_map.length := by
    rw [built_hash_map_length hb]
    have h1 := perfect_idx_lt_len hb ha hn (Nat.zero_le k) (by simpa using hj)
    simpa [rowStart_zero] using h1
  have hget : t.hash_map.get? j = some (t.hash_map.getD j []) := by
    rw [List.get?_eq_getElem?, List.getD_eq_getElem?_getD, List.getElem?_eq_getElem hjlen]
    rfl
  simp only [hget]
  have hfuel : k < t.len + 1 := by
    have h1 := perfect_len hb ha hn
    have h2 := le_rowStart_pow a ha k k (by omega)
    omega
  have hwalk := perfect_hash_path_go hb ha hn hj k 0 [t.hash_map.getD j []]
    (t.len + 1) (by omega) hfuel
  rw [show rowStart (a ^ k) a 0 + j / a ^ 0 = j by simp [rowStart_zero]] at hwalk
  rw [hwalk]
  congr 1
  unfold pathIdx
  rw [List.range_eq_range', List.range'_succ]
  simp [rowStart_zero]

lemma perfect_children {α : Type} {f : List Nat → element} {ser : α → List Nat}
    {a : Nat} {data : List α} {t : MerkleTree} {k : Nat}
    (hb : MerkleTree.build f ser a data = .ok t) (ha : 2 ≤ a)
    (hn : data.length = a ^ k) {r j : Nat} (hr1 : 1 ≤ r) (hr : r ≤ k)
    (hj : j < a ^ (k - r)) :
    t.children (rowStart (a ^ k) a r + j)
      = (List.range a).map fun i => rowStart (a ^ k) a (r - 1) + (j * a + i) := by
  have hin : t.in_sources (rowStart data.length a r + j)
      = (List.range a).map fun i => rowStart data.length a (r - 1) + (j * a + i) := by
    apply built_in_sources hb hr1
    · rw [hn, rc_pow a ha k]
      omega
    · rw [hn, layerSize_pow a ha r k hr]
      exact hj
  rw [hn] at hin
  unfold MerkleTree.children
  exact hin

/-- Every digest of every row is an output of the hash function. -/
lemma layer_mem_image (f : List Nat → element) (a : Nat) :
    ∀ (r : Nat) (L : List element), (∀ x ∈ L, ∃ bs, x = f bs) →
      ∀ x ∈ (hashLayer f a)^[r] L, ∃ bs, x = f bs
  | 0, L, hL => by simpa using hL
  | r + 1, L, hL => by
    rw [Function.iterate_succ_apply]
    apply layer_mem_image f a r
    intro x hx
    unfold hashLayer at hx
    obtain ⟨i, hi, rfl⟩ := List.mem_map.mp hx
    exact ⟨_, rfl⟩

/-- Row 0 of a built tree: entry `i` is the hash of the serialized leaf `i`. -/
lemma built_leaf_digest {α : Type} {f : List Nat → element} {ser : α → List Nat}
    {a : Nat} {data : List α} {t : MerkleTree}
    (hb : MerkleTree.build f ser a data = .ok t) {i : Nat} {x : α}
    (hx : data.get? i = some x) : t.hash_map.get? i = some (f (ser x)) := by
  have hi : i < data.length := by
    obtain ⟨h, -⟩ := List.get?_eq_some.mp hx
    exact h
  have h0 := built_digest hb (show 0 < t.row_count by
      rw [built_row_count hb]
      exact rc_pos _ _)
    (show i < layerSize data.length a 0 by
      rw [layerSize_zero]
      exact hi)
  rw [rowStart_zero, Nat.zero_add] at h0
  rw [h0, Function.iterate_zero_apply, List.get?_map, hx]
  rfl

/-- Row `r > 0` of a built tree: entry `j` is the hash of the concatenation,
in child order, of the `arity` child digests of the previous row, and that
buffer has length `arity * digestSize` when every digest has length
`digestSize`. -/
lemma built_row_digest {α : Type} {f : List Nat → element} {ser : α → List Nat}
    {a ds : Nat} {data : List α} {t : MerkleTree}
    (hb : MerkleTree.build f ser a data = .ok t)
    (hds : ∀ bs, (f bs).length = ds) {r j : Nat} (hr1 : 0 < r)
    (hr : r < get_merkle_tree_row_count data.length a)
    (hj : j < layerSize data.length a r) :
    t.hash_map.get? (rowStart data.length a r + j) =
      some (f (List.flatten ((List.range a).map fun i =>
        t.hash_map.getD (rowStart data.length a (r - 1) + (j * a + i)) []))) ∧
    (List.flatten ((List.range a).map fun i =>
        t.hash_map.getD (rowStart data.length a (r - 1) + (j * a + i)) [])).length
      = a * ds := by
  have hrc := built_row_count hb
  set L0 := data.map fun d => f (ser d) with hL0
  have hL0len : L0.length = data.length := by simp [hL0]
  have hprevlen : ((hashLayer f a)^[r - 1] L0).length = layerSize data.length a (r - 1) := by
    rw [iterate_hashLayer_length, hL0len]
    rfl
  have hchild : ∀ i, i < a →
      t.hash_map.getD (rowStart data.length a (r - 1) + (j * a + i)) []
        = ((hashLayer f a)^[r - 1] L0).getD (j * a + i) [] := by
    intro i hi
    have hc := child_lt (show 1 ≤ r by omega) hj hi
    have hdig := built_digest hb (show r - 1 < t.row_count by omega) hc
    rw [List.getD_eq_getElem?_getD, List.getD_eq_getElem?_getD,
      ← List.get?_eq_getElem?, ← List.get?_eq_getElem?, hdig]
  have hswap : ((List.range a).map fun i =>
      t.hash_map.getD (rowStart data.length a (r - 1) + (j * a + i)) [])
        = (List.range a).map fun i =>
            ((hashLayer f a)^[r - 1] L0).getD (j * a + i) [] := by
    apply List.map_congr_left
    intro i hi
    exact hchild i (List.mem_range.mp hi)
  constructor
  · have hcur := built_digest hb (show r < t.row_count by omega) hj
    rw [← hL0] at hcur
    have hiter : (hashLayer f a)^[r] L0 = hashLayer f a ((hashLayer f a)^[r - 1] L0) := by
      conv_lhs => rw [show r = (r - 1) + 1 by omega]
      rw [Function.iterate_succ_apply']
    rw [hcur, hiter]
    rw [hashLayer_get? f a _ (show j < ((hashLayer f a)^[r - 1] L0).length / a by
      rw [hprevlen, ← layerSize_succ_right, show r - 1 + 1 = r by omega]
      exact hj)]
    rw [hswap]
  · rw [hswap, List.length_flatten, List.map_map]
    have hconst : ((List.range a).map
        (List.length ∘ fun i => ((hashLayer f a)^[r - 1] L0).getD (j * a + i) []))
          = (List.range a).map fun i => ds := by
      apply List.map_congr_left
      intro i hi
      have hc := child_lt (show 1 ≤ r by omega) hj (List.mem_range.mp hi)
      have hmem : ((hashLayer f a)^[r - 1] L0).getD (j * a + i) []
          ∈ (hashLayer f a)^[r - 1] L0 := by
        rw [List.getD_eq_getElem?_getD,
          List.getElem?_eq_getElem (by omega), Option.getD_some]
        exact List.getElem_mem _
      obtain ⟨bs, hbs⟩ := layer_mem_image f a (r - 1) L0
        (by
          intro x hx
          obtain ⟨d, hd, rfl⟩ := List.mem_map.mp hx
          exact ⟨_, rfl⟩) _ hmem
      simp only [Function.comp_apply]
      rw [hbs]
      exact hds bs
    rw [hconst, List.map_const', List.length_range, List.sum_replicate, smul_eq_mul]

lemma div_pow_lt {a k j s : Nat} (ha : 2 ≤ a) (hj : j < a ^ k) (hs : s ≤ k) :
    j / a ^ s < a ^ (k - s) := by
  rw [Nat.div_lt_iff_lt_mul (Nat.pos_pow_of_pos s (by omega))]
  rw [show a ^ (k - s) * a ^ s = a ^ k by
    rw [← pow_add]
    congr 1
    omega]
  exact hj

lemma runQuery_state (t : MerkleTree) (q : Query) : (t.runQuery q).2 = t := by
  cases q <;> rfl

/-! ## Claim theorems -/

/-- C3 counterexample: the empty leaf list has fewer than `arity` leaves
(0 < 2), violating the claimed precondition `leaves.length ≥ arity`, yet the
constructor accepts it — only divisibility is checked
(`data.size() % Arity == 0`), and `0 % 2 = 0`. -/
theorem build_empty_accepted :
    ([] : List (List Nat)).length < 2 ∧
    MerkleTree.build tHash id 2 ([] : List (List Nat))
      ≠ .error .invalidLeafCount := by
  refine ⟨by decide, ?_⟩
  intro hcontra
  rw [show MerkleTree.build tHash id 2 ([] : List (List Nat))
    = Except.ok (buildD tHash id 2 ([] : List (List Nat))) from rfl] at hcontra
  exact Except.noConfusion hcontra

/-- C3 amended: `build` checks only `leaves.length % arity == 0`; it fails
with `InvalidLeafCount` (before any hashing, and leaving no tree behind)
exactly when the length is not divisible by the arity.  The conjunct
`leaves.length ≥ arity` is not checked: the empty input passes. -/
theorem build_error_iff_not_divisible {α : Type} (f : List Nat → element)
    (ser : α → List Nat) (a : Nat) (data : List α) :
    (MerkleTree.build f ser a data = .error .invalidLeafCount
      ↔ ¬ (data.length % a = 0)) ∧
    ((∃ t, MerkleTree.build f ser a data = .ok t) ↔ data.length % a = 0) := by
  unfold MerkleTree.build
  by_cases hc : data.length % a = 0
  · rw [if_neg (by omega)]
    refine ⟨⟨fun h => Except.noConfusion h, fun h => absurd hc h⟩,
      ⟨fun _ => hc, fun _ => ⟨_, rfl⟩⟩⟩
  · rw [if_pos (by omega)]
    refine ⟨⟨fun _ => hc, fun _ => rfl⟩,
      ⟨fun ht => ?_, fun h => absurd h hc⟩⟩
    obtain ⟨t, ht⟩ := ht
    exact Except.noConfusion ht

/-- C5: for every built tree whose row arithmetic terminates at a single
top node (the condition under which the spec derivation of `row_count` is
defined), `root()` returns the digest stored at the final node index
`total_node_count - 1`; that index is the single node of the top row and
has no out-edge — it is the root of the tree. -/
theorem merkle_root_last_node {α : Type} (f : List Nat → element)
    (ser : α → List Nat) (a : Nat) (data : List α) (t : MerkleTree)
    (hb : MerkleTree.build f ser a data = .ok t)
    (hwf : layerSize data.length a (get_merkle_tree_row_count data.length a - 1) = 1) :
    t.root = t.get (t.len - 1) ∧
    t.root = .ok (t.hash_map.getD (t.len - 1) []) ∧
    t.len - 1 = rowStart data.length a (t.row_count - 1) ∧
    t.out_targets (t.len - 1) = [] := by
  have hrc := built_row_count hb
  have hlen := built_len hb
  have hrcpos := rc_pos data.length a
  have hlen2 : get_merkle_tree_len data.length a
      = rowStart data.length a (get_merkle_tree_row_count data.length a - 1) + 1 := by
    unfold get_merkle_tree_len
    conv_lhs => rw [show get_merkle_tree_row_count data.length a
      = (get_merkle_tree_row_count data.length a - 1) + 1 by omega]
    rw [rowStart_succ, hwf]
  have hml := built_hash_map_length hb
  have hidx : t.len - 1 < t.hash_map.length := by omega
  refine ⟨rfl, ?_, by rw [hrc]; omega, ?_⟩
  · have hsome : t.hash_map.get? (t.len - 1)
        = some (t.hash_map.getD (t.len - 1) []) := by
      rw [List.get?_eq_getElem?, List.getD_eq_getElem?_getD,
        List.getElem?_eq_getElem hidx]
      rfl
    unfold MerkleTree.root MerkleTree.get
    simp only [hsome]
  · apply built_out_top hb
    omega

/-- C5 witness: the arity-2 tree over 8 leaves. -/
theorem merkle_root_last_node_witness :
    (MerkleTree.build tHash id 2 data8 = .ok (buildD tHash id 2 data8) ∧
     layerSize data8.length 2 (get_merkle_tree_row_count data8.length 2 - 1) = 1) ∧
    ((buildD tHash id 2 data8).root = (buildD tHash id 2 data8).get
        ((buildD tHash id 2 data8).len - 1) ∧
     (buildD tHash id 2 data8).root = .ok ((buildD tHash id 2 data8).hash_map.getD
        ((buildD tHash id 2 data8).len - 1) []) ∧
     (buildD tHash id 2 data8).len - 1
        = rowStart data8.length 2 ((buildD tHash id 2 data8).row_count - 1) ∧
     (buildD tHash id 2 data8).out_targets ((buildD tHash id 2 data8).len - 1) = []) :=
  ⟨⟨rfl, by decide⟩,
    merkle_root_last_node tHash id 2 data8 (buildD tHash id 2 data8) rfl (by decide)⟩

/-- C6: the derived row and node counts.  The two concrete shapes of the
test suite: 8 leaves at arity 2 give `row_count = 4`, `len = 15`; 9 leaves
at arity 3 give `row_count = 3`, `len = 13`.  `row_count` is the smallest
row index whose layer has shrunk to a single element, plus one, and `len`
is the sum of the per-row element counts. -/
theorem merkle_row_len_arithmetic :
    (MerkleTree.build tHash id 2 data8).map (fun t => (t.get_row_count, t.get_len))
      = .ok (4, 15) ∧
    (MerkleTree.build tHash id 3 data9).map (fun t => (t.get_row_count, t.get_len))
      = .ok (3, 13) ∧
    layerSize 8 2 3 = 1 ∧ layerSize 8 2 0 ≠ 1 ∧ layerSize 8 2 1 ≠ 1 ∧
    layerSize 8 2 2 ≠ 1 ∧
    layerSize 9 3 2 = 1 ∧ layerSize 9 3 0 ≠ 1 ∧ layerSize 9 3 1 ≠ 1 ∧
    get_merkle_tree_len 8 2
      = ((List.range (get_merkle_tree_row_count 8 2)).map (layerSize 8 2)).sum ∧
    get_merkle_tree_len 9 3
      = ((List.range (get_merkle_tree_row_count 9 3)).map (layerSize 9 3)).sum := by
  refine ⟨rfl, rfl, by decide, by decide, by decide, by decide, by decide,
    by decide, by decide, by decide, by decide⟩

/-- C7 counterexample: on the built 8-leaf tree (`len = 15`) the index 15
is out of range, yet neither `hash_path` nor `operator[]` fails with an
`IndexOutOfRange` error: both perform the unchecked access (undefined
behavior, `ub`). -/
theorem index_unchecked_cex :
    (buildD tHash id 2 data8).len = 15 ∧
    (buildD tHash id 2 data8).hash_path 15 = .ub ∧
    (buildD tHash id 2 data8).get 15 = .ub ∧
    (buildD tHash id 2 data8).hash_path 15
      ≠ .err MerkleError.indexOutOfRange ∧
    (buildD tHash id 2 data8).get 15 ≠ .err MerkleError.indexOutOfRange := by
  refine ⟨by decide, by decide, by decide, by decide, by decide⟩

/-- C7 amended: the code performs no bounds check at all — on a built tree,
any index at or beyond `len` makes `hash_path` and `operator[]` dereference
out of bounds (undefined behavior); no `IndexOutOfRange` error exists in
the code. -/
theorem out_of_range_is_ub {α : Type} (f : List Nat → element)
    (ser : α → List Nat) (a : Nat) (data : List α) (t : MerkleTree) (idx : Nat)
    (hb : MerkleTree.build f ser a data = .ok t) (hidx : t.len ≤ idx) :
    t.hash_path idx = .ub ∧ t.get idx = .ub := by
  have hlen := built_hash_map_length hb
  have hnone : t.hash_map.get? idx = none := by
    rw [List.get?_eq_getElem?]
    exact List.getElem?_eq_none (by omega)
  constructor
  · unfold MerkleTree.hash_path
    simp only [hnone]
  · unfold MerkleTree.get
    simp only [hnone]

/-- C7 amended witness: index 15 on the 8-leaf arity-2 tree. -/
theorem out_of_range_is_ub_witness :
    (MerkleTree.build tHash id 2 data8 = .ok (buildD tHash id 2 data8) ∧
     (buildD tHash id 2 data8).len ≤ 15) ∧
    ((buildD tHash id 2 data8).hash_path 15 = .ub ∧
     (buildD tHash id 2 data8).get 15 = .ub) :=
  ⟨⟨rfl, by decide⟩,
    out_of_range_is_ub tHash id 2 data8 (buildD tHash id 2 data8) 15 rfl (by decide)⟩

/-- C8 counterexample: on the built 8-leaf tree the root is node 14
(`len - 1`); `parent(14)` dereferences the end iterator of an empty
out-edge range (undefined behavior), it does not fail with
`RootHasNoParent`. -/
theorem parent_root_ub_cex :
    (buildD tHash id 2 data8).len - 1 = 14 ∧
    (buildD tHash id 2 data8).parent 14 = .ub ∧
    (buildD tHash id 2 data8).parent 14 ≠ .err MerkleError.rootHasNoParent := by
  refine ⟨by decide, by decide, by decide⟩

/-- C9: the query interface of a built tree is read-only.  Running any
sequence of `root` / `children` / `parent` / `hash_path` / `operator[]` /
getter queries leaves the state unchanged, and every answer is the answer
the original state gives — every query observes the same state. -/
theorem merkle_tree_readonly :
    ∀ (t : MerkleTree) (qs : List Query),
      t.runQueries qs = (qs.map fun q => (t.runQuery q).1, t)
  | _, [] => rfl
  | t, q :: qs => by
    have ih := merkle_tree_readonly t qs
    show ((t.runQuery q).1 :: ((t.runQuery q).2.runQueries qs).1,
      ((t.runQuery q).2.runQueries qs).2) = _
    rw [runQuery_state t q, ih]
    rfl

/-- C1: digests of a built tree.  Row 0: entry `i` is
`hashFn(serialize(leaves[i]))`.  Row `r > 0`: entry `j` is `hashFn` of the
concatenation, in left-to-right child order, of the digests of the `arity`
contiguous children at offsets `j * arity + i` of row `r - 1`, a buffer of
length `arity * digestSize`. -/
theorem merkle_build_digests {α : Type} (f : List Nat → element) (ser : α → List Nat)
    (a ds : Nat) (data : List α) (t : MerkleTree)
    (_ha : 2 ≤ a) (_hcnt : a ≤ data.length) (hds : ∀ bs, (f bs).length = ds)
    (hb : MerkleTree.build f ser a data = .ok t) :
    (∀ i x, data.get? i = some x → t.hash_map.get? i = some (f (ser x))) ∧
    (∀ r j, 0 < r → r < t.row_count → j < layerSize data.length a r →
      t.hash_map.get? (rowStart data.length a r + j) =
        some (f (List.flatten ((List.range a).map fun i =>
          t.hash_map.getD (rowStart data.length a (r - 1) + (j * a + i)) []))) ∧
      (List.flatten ((List.range a).map fun i =>
          t.hash_map.getD (rowStart data.length a (r - 1) + (j * a + i)) [])).length
        = a * ds) := by
  refine ⟨fun i x hx => built_leaf_digest hb hx, fun r j hr1 hr hj => ?_⟩
  exact built_row_digest hb hds hr1 (by rw [← built_row_count hb]; exact hr) hj

/-- C1 witness: the arity-2 tree over 8 leaves with the small concrete
hash of digest size 2. -/
theorem merkle_build_digests_witness :
    (2 ≤ 2 ∧ 2 ≤ data8.length ∧ (∀ bs, (tHash bs).length = 2) ∧
     MerkleTree.build tHash id 2 data8 = .ok (buildD tHash id 2 data8)) ∧
    ((∀ i x, data8.get? i = some x →
        (buildD tHash id 2 data8).hash_map.get? i = some (tHash (id x))) ∧
     (∀ r j, 0 < r → r < (buildD tHash id 2 data8).row_count →
        j < layerSize data8.length 2 r →
        (buildD tHash id 2 data8).hash_map.get? (rowStart data8.length 2 r + j) =
          some (tHash (List.flatten ((List.range 2).map fun i =>
            (buildD tHash id 2 data8).hash_map.getD
              (rowStart data8.length 2 (r - 1) + (j * 2 + i)) []))) ∧
        (List.flatten ((List.range 2).map fun i =>
            (buildD tHash id 2 data8).hash_map.getD
              (rowStart data8.length 2 (r - 1) + (j * 2 + i)) [])).length = 2 * 2)) :=
  ⟨⟨by omega, by decide, fun bs => rfl, rfl⟩,
    merkle_build_digests tHash id 2 2 data8 (buildD tHash id 2 data8)
      (by omega) (by decide) (fun bs => rfl) rfl⟩

/-- The parent-chain walk from any leaf of a perfect tree reaches the
root: one step of the induction, mirroring the `hash_path` walk. -/
lemma perfect_reaches_root_go {α : Type} {f : List Nat → element} {ser : α → List Nat}
    {a : Nat} {data : List α} {t : MerkleTree} {k : Nat}
    (hb : MerkleTree.build f ser a data = .ok t) (ha : 2 ≤ a)
    (hn : data.length = a ^ k) {j : Nat} (hj : j < a ^ k) :
    ∀ (d r fuel : Nat), r + d = k → d < fuel →
      t.reaches_root fuel (rowStart (a ^ k) a r + j / a ^ r) = true
  | 0, r, fuel + 1, hrd, _hf => by
    have hr : r = k := by omega
    subst hr
    have hd0 : j / a ^ r = 0 := Nat.div_eq_of_lt hj
    unfold MerkleTree.reaches_root
    rw [hd0]
    rw [show rowStart (a ^ r) a r + 0 = rowStart (a ^ r) a r by omega]
    have hlen := perfect_len hb ha hn
    simp [perfect_out_top hb ha hn, hlen]
  | d + 1, r, fuel + 1, hrd, hf => by
    have hrk : r < k := by omega
    unfold MerkleTree.reaches_root
    have hout : t.out_targets (rowStart data.length a r + j / a ^ r)
        = [rowStart data.length a (r + 1) + j / a ^ r / a] := by
      apply built_out_targets hb (by omega)
      · rw [hn, rc_pow a ha k]
        omega
      · rw [hn, layerSize_pow a ha r k (by omega)]
        exact div_pow_lt ha hj (by omega)
      · rw [hn, layerSize_pow a ha (r + 1) k (by omega)]
        rw [Nat.div_div_eq_div_mul, ← Nat.pow_succ]
        exact div_pow_lt ha hj (by omega)
    rw [hn] at hout
    rw [show j / a ^ r / a = j / a ^ (r + 1) by
      rw [Nat.div_div_eq_div_mul, ← Nat.pow_succ]] at hout
    simp only [hout]
    exact perfect_reaches_root_go hb ha hn hj d (r + 1) fuel (by omega) (by omega)

/-- The parent-chain walk from any leaf of a perfect tree reaches the root
with the fuel `validate` supplies. -/
lemma perfect_reaches_root {α : Type} {f : List Nat → element} {ser : α → List Nat}
    {a : Nat} {data : List α} {t : MerkleTree} {k : Nat}
    (hb : MerkleTree.build f ser a data = .ok t) (ha : 2 ≤ a)
    (hn : data.length = a ^ k) {j : Nat} (hj : j < a ^ k) :
    t.reaches_root (t.len + 1) j = true := by
  have hfuel : k < t.len + 1 := by
    have h1 := perfect_len hb ha hn
    have h2 := le_rowStart_pow a ha k k (by omega)
    omega
  have hwalk := perfect_reaches_root_go hb ha hn hj k 0 (t.len + 1) (by omega) hfuel
  rw [show rowStart (a ^ k) a 0 + j / a ^ 0 = j by simp [rowStart_zero]] at hwalk
  exact hwalk

/-- C2 counterexample: six leaves at arity 2 pass the construction check,
and the digest stored at leaf 4 is exactly the hash of the serialized
leaf, yet `validate(tree, 4, leaves[4])` returns `false`: the recorded
parent chain from leaf 4 stops at the orphan row-1 node and never reaches
the root, so the reachability conjunct fails. -/
theorem validate_inclusion_fails_cex :
    MerkleTree.build tHash id 2 data6 = .ok (buildD tHash id 2 data6) ∧
    data6.get? 4 = some [4] ∧
    (buildD tHash id 2 data6).hash_map.get? 4 = some (tHash [4]) ∧
    validate tHash id (buildD tHash id 2 data6) 4 [4] = false :=
  ⟨rfl, rfl, by decide, by decide⟩

/-- C2 amended: `validate` (modelled from the spec with both conjuncts:
byte comparison against the stored leaf digest AND reachability of the
root along the recorded parent chain) behaves as the claim states on
every built tree whose leaf count is a power of the arity — there the
chain always reaches the root, so validation succeeds on the stored leaf
value and in general succeeds exactly when the hashes agree.  On every
built tree, a claimed value whose hash differs from the stored leaf
digest is rejected. -/
theorem merkle_validate_perfect {α : Type} (f : List Nat → element)
    (ser : α → List Nat) (a k : Nat) (data : List α) (t : MerkleTree)
    (i : Nat) (x : α) (ha : 2 ≤ a) (hn : data.length = a ^ k)
    (hb : MerkleTree.build f ser a data = .ok t) (hx : data.get? i = some x) :
    validate f ser t i x = true ∧
    (∀ c, validate f ser t i c = true ↔ f (ser c) = f (ser x)) ∧
    (∀ c, f (ser c) ≠ f (ser x) → validate f ser t i c = false) ∧
    (∀ (data2 : List α) (t2 : MerkleTree) (i2 : Nat) (x2 c : α),
      MerkleTree.build f ser a data2 = .ok t2 → data2.get? i2 = some x2 →
      f (ser c) ≠ f (ser x2) → validate f ser t2 i2 c = false) := by
  have hi : i < data.length := by
    obtain ⟨h, -⟩ := List.get?_eq_some.mp hx
    exact h
  have hik : i < a ^ k := by
    rw [← hn]
    exact hi
  have hst : t.hash_map.getD i [] = f (ser x) := by
    have h := built_leaf_digest hb hx
    rw [List.getD_eq_getElem?_getD, ← List.get?_eq_getElem?, h]
    rfl
  have hreach := perfect_reaches_root hb ha hn hik
  have hiff : ∀ c, validate f ser t i c = true ↔ f (ser c) = f (ser x) := by
    intro c
    unfold validate
    rw [hst, hreach, Bool.and_true, beq_iff_eq]
    exact eq_comm
  have hgen : ∀ (data2 : List α) (t2 : MerkleTree) (i2 : Nat) (x2 c : α),
      MerkleTree.build f ser a data2 = .ok t2 → data2.get? i2 = some x2 →
      f (ser c) ≠ f (ser x2) → validate f ser t2 i2 c = false := by
    intro data2 t2 i2 x2 c hb2 hx2 hne
    have hst2 : t2.hash_map.getD i2 [] = f (ser x2) := by
      have h := built_leaf_digest hb2 hx2
      rw [List.getD_eq_getElem?_getD, ← List.get?_eq_getElem?, h]
      rfl
    unfold validate
    rw [hst2, show (f (ser x2) == f (ser c)) = false from
      beq_eq_false_iff_ne.mpr (fun he => hne he.symm)]
    rfl
  refine ⟨(hiff x).mpr rfl, hiff, fun c hc => ?_, hgen⟩
  rcases Bool.eq_false_or_eq_true (validate f ser t i c) with ht | hf
  · exact absurd ((hiff c).mp ht) hc
  · exact hf

/-- C2 amended witness: leaf 0 of the 8-leaf arity-2 tree (8 = 2 ^ 3). -/
theorem merkle_validate_perfect_witness :
    (2 ≤ 2 ∧ data8.length = 2 ^ 3 ∧
     MerkleTree.build tHash id 2 data8 = .ok (buildD tHash id 2 data8) ∧
     data8.get? 0 = some [0]) ∧
    (validate tHash id (buildD tHash id 2 data8) 0 [0] = true ∧
     (∀ c, validate tHash id (buildD tHash id 2 data8) 0 c = true
        ↔ tHash (id c) = tHash (id [0])) ∧
     (∀ c, tHash (id c) ≠ tHash (id [0]) →
        validate tHash id (buildD tHash id 2 data8) 0 c = false) ∧
     (∀ (data2 : List (List Nat)) (t2 : MerkleTree) (i2 : Nat) (x2 c : List Nat),
        MerkleTree.build tHash id 2 data2 = .ok t2 → data2.get? i2 = some x2 →
        tHash (id c) ≠ tHash (id x2) → validate tHash id t2 i2 c = false)) :=
  ⟨⟨by omega, by decide, rfl, rfl⟩,
    merkle_validate_perfect tHash id 2 3 data8 (buildD tHash id 2 data8) 0 [0]
      (by omega) (by decide) rfl rfl⟩

/-- C4 counterexample: six leaves at arity 2 pass the construction check
(6 is divisible by 2 and at least 2), yet `hash_path(4)` holds only two
digests and its last entry is the row-1 digest over leaves 4 and 5 — not
the root digest: that row-1 node never received a parent edge, so the walk
stops before reaching the root. -/
theorem hash_path_misses_root_cex :
    MerkleTree.build tHash id 2 data6 = .ok (buildD tHash id 2 data6) ∧
    (buildD tHash id 2 data6).hash_path 4
      = .ok [tHash [4], tHash (tHash [4] ++ tHash [5])] ∧
    (buildD tHash id 2 data6).root
      = .ok (tHash (tHash (tHash [0] ++ tHash [1])
          ++ tHash (tHash [2] ++ tHash [3]))) ∧
    tHash (tHash [4] ++ tHash [5])
      ≠ tHash (tHash (tHash [0] ++ tHash [1]) ++ tHash (tHash [2] ++ tHash [3])) :=
  ⟨rfl, by decide, by decide, by decide⟩

/-- C4 amended: on a built tree whose leaf count is a power `arity ^ k`
(`k ≥ 1`) of the arity, `hash_path(leafIndex)` is exactly the digests of
the ancestor chain `pathIdx`: it starts at `leafIndex`, each node is
followed by its `parent`, it ends at the root index `len - 1`, and the
last digest is the root digest; `prove` returns the same sequence. -/
theorem perfect_hash_path_spec {α : Type} (f : List Nat → element) (ser : α → List Nat)
    (a k : Nat) (data : List α) (t : MerkleTree) (j : Nat)
    (ha : 2 ≤ a) (_hk : 1 ≤ k) (hn : data.length = a ^ k)
    (hb : MerkleTree.build f ser a data = .ok t) (hj : j < data.length) :
    t.hash_path j = .ok ((pathIdx a k j).map fun v => t.hash_map.getD v []) ∧
    prove t j = .ok ((pathIdx a k j).map fun v => t.hash_map.getD v []) ∧
    (pathIdx a k j).head? = some j ∧
    (pathIdx a k j).getLast? = some (t.len - 1) ∧
    (∀ r, r < k → t.parent ((pathIdx a k j).getD r 0)
        = .ok ((pathIdx a k j).getD (r + 1) 0)) ∧
    t.root = .ok (t.hash_map.getD (t.len - 1) []) := by
  have hjk : j < a ^ k := by rw [← hn]; exact hj
  have hpath := perfect_hash_path hb ha hn hjk
  have hlen := perfect_len hb ha hn
  refine ⟨hpath, by unfold prove; exact hpath, pathIdx_head, ?_, ?_, ?_⟩
  · rw [pathIdx_getLast hjk, hlen]
    simp
  · intro r hr
    rw [pathIdx_getD (by omega), pathIdx_getD (by omega)]
    have hp := perfect_parent hb ha hn hr (div_pow_lt ha hjk (by omega))
    rw [show j / a ^ r / a = j / a ^ (r + 1) by
      rw [Nat.div_div_eq_div_mul, ← Nat.pow_succ]] at hp
    exact hp
  · have hidx : t.len - 1 < t.hash_map.length := by
      rw [built_hash_map_length hb]
      omega
    have hsome : t.hash_map.get? (t.len - 1)
        = some (t.hash_map.getD (t.len - 1) []) := by
      rw [List.get?_eq_getElem?, List.getD_eq_getElem?_getD,
        List.getElem?_eq_getElem hidx]
      rfl
    unfold MerkleTree.root MerkleTree.get
    simp only [hsome]

/-- C4 amended witness: leaf 5 of the 8-leaf arity-2 tree (8 = 2 ^ 3). -/
theorem perfect_hash_path_spec_witness :
    (2 ≤ 2 ∧ 1 ≤ 3 ∧ data8.length = 2 ^ 3 ∧
     MerkleTree.build tHash id 2 data8 = .ok (buildD tHash id 2 data8) ∧
     5 < data8.length) ∧
    ((buildD tHash id 2 data8).hash_path 5
        = .ok ((pathIdx 2 3 5).map fun v =>
            (buildD tHash id 2 data8).hash_map.getD v []) ∧
     prove (buildD tHash id 2 data8) 5
        = .ok ((pathIdx 2 3 5).map fun v =>
            (buildD tHash id 2 data8).hash_map.getD v []) ∧
     (pathIdx 2 3 5).head? = some 5 ∧
     (pathIdx 2 3 5).getLast? = some ((buildD tHash id 2 data8).len - 1) ∧
     (∀ r, r < 3 → (buildD tHash id 2 data8).parent ((pathIdx 2 3 5).getD r 0)
        = .ok ((pathIdx 2 3 5).getD (r + 1) 0)) ∧
     (buildD tHash id 2 data8).root
        = .ok ((buildD tHash id 2 data8).hash_map.getD
            ((buildD tHash id 2 data8).len - 1) [])) :=
  ⟨⟨by omega, by omega, by decide, rfl, by decide⟩,
    perfect_hash_path_spec tHash id 2 3 data8 (buildD tHash id 2 data8) 5
      (by omega) (by omega) (by decide) rfl (by decide)⟩

/-- C8 amended: on a built tree whose leaf count is a power of the arity,
`parent` of a non-root node of row `r` returns its single parent in row
`r + 1`; on the root it dereferences the end iterator of an empty out-edge
range (undefined behavior), not a `RootHasNoParent` error. -/
theorem perfect_parent_spec {α : Type} (f : List Nat → element) (ser : α → List Nat)
    (a k : Nat) (data : List α) (t : MerkleTree)
    (ha : 2 ≤ a) (hn : data.length = a ^ k)
    (hb : MerkleTree.build f ser a data = .ok t) :
    (∀ r j, r < k → j < a ^ (k - r) →
      t.parent (rowStart (a ^ k) a r + j)
        = .ok (rowStart (a ^ k) a (r + 1) + j / a)) ∧
    t.parent (t.len - 1) = .ub := by
  refine ⟨fun r j hr hj => perfect_parent hb ha hn hr hj, ?_⟩
  have hlen := perfect_len hb ha hn
  have htop := perfect_out_top hb ha hn
  unfold MerkleTree.parent
  rw [show t.len - 1 = rowStart (a ^ k) a k by omega]
  simp only [htop]

/-- C8 amended witness: the 8-leaf arity-2 tree. -/
theorem perfect_parent_spec_witness :
    (2 ≤ 2 ∧ data8.length = 2 ^ 3 ∧
     MerkleTree.build tHash id 2 data8 = .ok (buildD tHash id 2 data8)) ∧
    ((∀ r j, r < 3 → j < 2 ^ (3 - r) →
      (buildD tHash id 2 data8).parent (rowStart (2 ^ 3) 2 r + j)
        = .ok (rowStart (2 ^ 3) 2 (r + 1) + j / 2)) ∧
     (buildD tHash id 2 data8).parent ((buildD tHash id 2 data8).len - 1) = .ub) :=
  ⟨⟨by omega, by decide, rfl⟩,
    perfect_parent_spec tHash id 2 3 data8 (buildD tHash id 2 data8)
      (by omega) (by decide) rfl⟩

/-- C10 counterexample: in the built 6-leaf arity-2 tree (10 nodes, root
index 9) the node 8 is not the root, yet it has no recorded parent —
`parent(8)` finds no out-edge (undefined behavior) — so
`children(parent(8))` cannot contain it. -/
theorem orphan_node_cex :
    (buildD tHash id 2 data6).len = 10 ∧
    8 < (buildD tHash id 2 data6).len - 1 ∧
    (buildD tHash id 2 data6).parent 8 = .ub ∧
    ¬ (∃ p, (buildD tHash id 2 data6).parent 8 = .ok p ∧
        8 ∈ (buildD tHash id 2 data6).children p) := by
  refine ⟨by decide, by decide, by decide, ?_⟩
  rintro ⟨p, hp, -⟩
  rw [show (buildD tHash id 2 data6).parent 8 = .ub from by decide] at hp
  exact CppResult.noConfusion hp

/-- C10 amended: on a built tree whose leaf count is a power of the arity,
`children` and `parent` are mutually inverse on the recorded edges: every
non-leaf node has exactly `arity` children, each child's `parent` is that
node, and every non-root node occurs among the children of its parent. -/
theorem perfect_children_parent_inverse {α : Type} (f : List Nat → element)
    (ser : α → List Nat) (a k : Nat) (data : List α) (t : MerkleTree)
    (ha : 2 ≤ a) (hn : data.length = a ^ k)
    (hb : MerkleTree.build f ser a data = .ok t) :
    (∀ r j, 1 ≤ r → r ≤ k → j < a ^ (k - r) →
      t.children (rowStart (a ^ k) a r + j)
        = (List.range a).map (fun i => rowStart (a ^ k) a (r - 1) + (j * a + i)) ∧
      (t.children (rowStart (a ^ k) a r + j)).length = a ∧
      (∀ c ∈ t.children (rowStart (a ^ k) a r + j),
        t.parent c = .ok (rowStart (a ^ k) a r + j))) ∧
    (∀ r j, r < k → j < a ^ (k - r) →
      ∃ p, t.parent (rowStart (a ^ k) a r + j) = .ok p ∧
        rowStart (a ^ k) a r + j ∈ t.children p) := by
  constructor
  · intro r j hr1 hrk hj
    have hch := perfect_children hb ha hn hr1 hrk hj
    refine ⟨hch, by rw [hch]; simp, ?_⟩
    intro c hc
    rw [hch] at hc
    obtain ⟨i, hi, rfl⟩ := List.mem_map.mp hc
    have hia := List.mem_range.mp hi
    have hcb : j * a + i < a ^ (k - (r - 1)) := by
      have h1 : j * a + i < a ^ (k - r) * a := by
        calc j * a + i < j * a + a := by omega
        _ = (j + 1) * a := by ring
        _ ≤ a ^ (k - r) * a := Nat.mul_le_mul_right a hj
      rw [show a ^ (k - r) * a = a ^ (k - r + 1) by rw [Nat.pow_succ]] at h1
      rw [show k - (r - 1) = k - r + 1 by omega]
      exact h1
    have hp := perfect_parent hb ha hn (show r - 1 < k by omega) hcb
    rw [show r - 1 + 1 = r by omega] at hp
    rw [show (j * a + i) / a = j by
      rw [show j * a + i = i + a * j by ring, Nat.add_mul_div_left _ _ (by omega),
        Nat.div_eq_of_lt hia]
      omega] at hp
    exact hp
  · intro r j hrk hj
    have hdiv : j / a < a ^ (k - (r + 1)) := by
      rw [Nat.div_lt_iff_lt_mul (by omega)]
      rw [show a ^ (k - (r + 1)) * a = a ^ (k - r) by
        rw [← Nat.pow_succ]
        congr 1
        omega]
      exact hj
    refine ⟨rowStart (a ^ k) a (r + 1) + j / a,
      perfect_parent hb ha hn hrk hj, ?_⟩
    have hch := perfect_children hb ha hn (by omega) (by omega) hdiv
    rw [show r + 1 - 1 = r by omega] at hch
    rw [hch]
    have hd2 : j / a * a + j % a = j := by
      rw [Nat.mul_comm]
      exact Nat.div_add_mod j a
    apply List.mem_map.mpr
    refine ⟨j % a, List.mem_range.mpr (Nat.mod_lt j (by omega)), ?_⟩
    show rowStart (a ^ k) a r + (j / a * a + j % a) = rowStart (a ^ k) a r + j
    rw [hd2]

/-- C10 amended witness: the 8-leaf arity-2 tree. -/
theorem perfect_children_parent_inverse_witness :
    (2 ≤ 2 ∧ data8.length = 2 ^ 3 ∧
     MerkleTree.build tHash id 2 data8 = .ok (buildD tHash id 2 data8)) ∧
    ((∀ r j, 1 ≤ r → r ≤ 3 → j < 2 ^ (3 - r) →
      (buildD tHash id 2 data8).children (rowStart (2 ^ 3) 2 r + j)
        = (List.range 2).map (fun i => rowStart (2 ^ 3) 2 (r - 1) + (j * 2 + i)) ∧
      ((buildD tHash id 2 data8).children (rowStart (2 ^ 3) 2 r + j)).length = 2 ∧
      (∀ c ∈ (buildD tHash id 2 data8).children (rowStart (2 ^ 3) 2 r + j),
        (buildD tHash id 2 data8).parent c = .ok (rowStart (2 ^ 3) 2 r + j))) ∧
     (∀ r j, r < 3 → j < 2 ^ (3 - r) →
      ∃ p, (buildD tHash id 2 data8).parent (rowStart (2 ^ 3) 2 r + j) = .ok p ∧
        rowStart (2 ^ 3) 2 r + j ∈ (buildD tHash id 2 data8).children p)) :=
  ⟨⟨by omega, by decide, rfl⟩,
    perfect_children_parent_inverse tHash id 2 3 data8 (buildD tHash id 2 data8)
      (by omega) (by decide) rfl⟩

end Merkletree
